import Mathlib

/-!
Verification of the metapopulation dynamics engine of the hankshaw-effect
simulator against its specification.  The Python sources `model/genome.py`
and `model/Metapopulation.py` are shallowly embedded below: machine floats
become real numbers (rationals where the code branches on them), numpy
arrays become lists or functions on `Fin`, and the random draws of the
simulator become explicitly quantified oracle parameters.
-/

namespace genome

/-- Binary digits of a positive natural number, most significant bit first,
with no leading zeros: the digit list of `bin(a)[2:]` for `a > 0`
(and `[]` for `0`, which `base10_as_bitarray` below special-cases). -/
def rawBits : Nat → List Nat
  | 0 => []
  | (n + 1) => rawBits ((n + 1) / 2) ++ [(n + 1) % 2]
decreasing_by exact Nat.div_lt_self (Nat.succ_pos n) (by omega)

/-- `base10_as_bitarray` from `genome.py`: the digits of Python's `bin(a)[2:]`.
Python renders `bin(0)` as `'0b0'`, so `0` decodes to `[0]`, not `[]`. -/
def base10_as_bitarray (a : Nat) : List Nat :=
  if a = 0 then [0] else rawBits a

/-- Two's-complement wrap-around of numpy's signed 64-bit integers: the
unique representative of `x` modulo `2^64` in `[-2^63, 2^63)`.  numpy
integer arithmetic (`np.arange`, `2**…`, `*`, `np.sum`) runs in `int64`
and wraps silently on overflow. -/
def int64_wrap (x : ℤ) : ℤ :=
  (x + 2 ^ 63) % 2 ^ 64 - 2 ^ 63

/-- `bitstring_as_base10` from `genome.py`:
`np.sum(a * 2**np.arange(len(a))[::-1])`, i.e. most-significant-first
positional binary weighting, computed — as numpy does — in signed 64-bit
integer arithmetic.  Every numpy intermediate (each power `2^k`, each
elementwise product, each partial sum) is the `int64` wrap of its exact
value and is therefore congruent to it modulo `2^64`; since congruence is
preserved by addition and multiplication, the final `int64` result is
exactly the wrap of the exact weighted sum, which is how it is written
here.  In particular `2^63` overflows to `-2^63`, so bit arrays of length
64 (values `≥ 2^63`) wrap. -/
def bitstring_as_base10 (a : List Nat) : ℤ :=
  int64_wrap (∑ i ∈ Finset.range a.length,
    (a.getD i 0 : ℤ) * 2 ^ (a.length - 1 - i))

/-- `hamming_distance` from `genome.py`: `bin(a ^ b).count('1')`. -/
def hamming_distance (a b : Nat) : Nat :=
  (base10_as_bitarray (a ^^^ b)).count 1

/-- `is_producer` from `genome.py`: `g & 2**bits == 2**bits`. -/
def is_producer (g bits : Nat) : Bool :=
  g &&& 2 ^ bits == 2 ^ bits

end genome

/-- Left-pad a digit list with zeros to length `n`:
`np.append(np.zeros(n - len(l)), l)` as used in `build_fitness_landscape`. -/
def padTo (n : Nat) (l : List Nat) : List Nat :=
  List.replicate (n - l.length) 0 ++ l

/-- `Metapopulation.build_fitness_landscape`.  The `genome_length` random
per-locus effect sizes (exponential or uniform draws in the source) enter as
the explicit list `effects0`; the function prepends the social-locus effect
`-production_cost` and maps every genotype `i < 2^(genome_length+1)` to the
dot product of its zero-padded bit array with the effect vector, plus
`base_fitness + production_cost`. -/
def build_fitness_landscape (genome_length : Nat)
    (base_fitness production_cost : ℝ) (effects0 : List ℝ) : List ℝ :=
  let effects : List ℝ := (-production_cost) :: effects0
  (List.range (2 ^ (genome_length + 1))).map (fun i =>
    (List.zipWith (fun (b : Nat) (e : ℝ) => (b : ℝ) * e)
        (padTo effects.length (genome.base10_as_bitarray i)) effects).sum
      + (base_fitness + production_cost))

/-- The social-locus indicator matrix `S` of `get_mutation_probabilities`:
built by tiling `[0]*2^L ++ [1]*2^L` over the first `2^L` rows and
`[1]*2^L ++ [0]*2^L` over the rest, so `S[i][j] = 1` exactly when `i` and `j`
lie on opposite sides of `2^L`. -/
def S_mat (genome_length i j : Nat) : Nat :=
  if (i < 2 ^ genome_length ↔ j < 2 ^ genome_length) then 0 else 1

/-- `nonsocial_hd` of `get_mutation_probabilities`: the pairwise Hamming
distance minus the social-locus contribution. -/
def nonsocial_hd (genome_length i j : Nat) : Nat :=
  genome.hamming_distance i j - S_mat genome_length i j

/-- One entry of the mutation-probability matrix `mr`:
`(1-m_a)^(L-NS) * m_a^NS * (1-m_s)^(S==0) * m_s^S`. -/
def mr (genome_length : Nat) (mutation_rate_social mutation_rate_adaptation : ℝ)
    (i j : Nat) : ℝ :=
  (1 - mutation_rate_adaptation) ^ (genome_length - nonsocial_hd genome_length i j)
    * mutation_rate_adaptation ^ (nonsocial_hd genome_length i j)
    * (1 - mutation_rate_social) ^ (1 - S_mat genome_length i j)
    * mutation_rate_social ^ (S_mat genome_length i j)

/-- `Metapopulation.get_mutation_probabilities`: the dense
`2^(L+1) × 2^(L+1)` matrix of mutation probabilities between all pairs of
genotypes. -/
def get_mutation_probabilities (genome_length : Nat)
    (mutation_rate_social mutation_rate_adaptation : ℝ) : List (List ℝ) :=
  (List.range (2 ^ (genome_length + 1))).map (fun i =>
    (List.range (2 ^ (genome_length + 1))).map (fun j =>
      mr genome_length mutation_rate_social mutation_rate_adaptation i j))

/-- Fixed-width binary digits, most significant bit first (proof helper for
relating `base10_as_bitarray` padded to width `w` with genotype bit fields). -/
def bitsFixed : Nat → Nat → List Nat
  | 0, _ => []
  | (w + 1), i => bitsFixed w (i / 2) ++ [i % 2]

/-- The unbounded positional value of a most-significant-first bit list
(proof helper: the exact value that `bitstring_as_base10` computes whenever
no `int64` wrap-around occurs, i.e. for bit lists of length at most 63). -/
def bitsValue (a : List Nat) : Nat :=
  ∑ i ∈ Finset.range a.length, a.getD i 0 * 2 ^ (a.length - 1 - i)

namespace Migration

/-- External `Population` calls issued by `Metapopulation.migrate`;
recorded so that the zero-rate guard's "no calls made" behaviour is
observable. -/
inductive PopCall (N : Nat) where
  | select_migrants (n : Fin N)
  | add_immigrants (n : Fin N)
  | remove_emigrants (n : Fin N)
deriving DecidableEq

/-- The migration-relevant state of the metapopulation: every node's live
abundance vector and its pending-immigrant buffer (the `Population` contract
of the spec: `add_immigrants` only buffers, `census` merges), plus the trace
of `Population` calls made so far. -/
structure MigState (N G : Nat) where
  live : Fin N → Fin G → Nat
  pending : Fin N → Fin G → Nat
  calls : List (PopCall N)

/-- `Population.add_immigrants` as seen from the engine: buffer the migrant
delta at the destination, leaving live abundances untouched. -/
def add_immigrants {N G : Nat} (s : MigState N G) (dst : Fin N)
    (delta : Fin G → Nat) : MigState N G :=
  { s with
    pending := Function.update s.pending dst (fun g => s.pending dst g + delta g)
    calls := s.calls ++ [PopCall.add_immigrants dst] }

/-- `Population.remove_emigrants` as seen from the engine: subtract the
migrant delta from the source's live abundances immediately. -/
def remove_emigrants {N G : Nat} (s : MigState N G) (src : Fin N)
    (delta : Fin G → Nat) : MigState N G :=
  { s with
    live := Function.update s.live src (fun g => s.live src g - delta g)
    calls := s.calls ++ [PopCall.remove_emigrants src] }

/-- `Metapopulation.census`: every population merges its pending-immigrant
buffer into its live abundances. -/
def census {N G : Nat} (s : MigState N G) : MigState N G :=
  { s with
    live := fun n g => s.live n g + s.pending n g
    pending := fun _ _ => 0 }

/-- The two `migration_dest` modes accepted by the configuration. -/
inductive MigrationDest where
  | single
  | neighbors
deriving DecidableEq

/-- One migration event of `Metapopulation.migrate`: call `select_migrants`
on the source against its current state, buffer the migrants at the resolved
destination, then remove them from the source. -/
def migrationEvent {N G : Nat}
    (select_migrants : MigState N G → Fin N → Fin G → Nat)
    (s : MigState N G) (src dst : Fin N) : MigState N G :=
  let migrants := select_migrants s src
  remove_emigrants
    (add_immigrants
      { s with calls := s.calls ++ [PopCall.select_migrants src] }
      dst migrants)
    src migrants

/-- `Metapopulation.migrate`.  The random draws of the source are supplied
as oracles: `select_migrants st n` is the delta returned by the external
population of node `n` in state `st` (at rate `migration_rate` in `single`
mode, `migration_rate/degree` in `neighbors` mode); `dest n` is the resolved
destination of node `n`'s migrants in `single` mode (one neighbor, or — with
probability `migration_p_far` — a uniformly random node); `dests n` is the
list of resolved per-neighbor-slot destinations in `neighbors` mode.
Guarded no-op when the configured migration rate is exactly 0. -/
def migrate {N G : Nat} (migration_rate : ℚ) (migration_dest : MigrationDest)
    (select_migrants : MigState N G → Fin N → Fin G → Nat)
    (dest : Fin N → Fin N) (dests : Fin N → List (Fin N))
    (s : MigState N G) : MigState N G :=
  if migration_rate = 0 then s
  else
    match migration_dest with
    | MigrationDest.single =>
        (List.finRange N).foldl
          (fun st n => migrationEvent select_migrants st n (dest n)) s
    | MigrationDest.neighbors =>
        (List.finRange N).foldl
          (fun st n =>
            (dests n).foldl
              (fun st2 d => migrationEvent select_migrants st2 n d) st) s

/-- Total live abundance over all nodes and genotypes. -/
def liveTotal {N G : Nat} (s : MigState N G) : Nat :=
  ∑ n : Fin N, ∑ g : Fin G, s.live n g

/-- Total buffered (pending-immigrant) abundance over all nodes. -/
def pendTotal {N G : Nat} (s : MigState N G) : Nat :=
  ∑ n : Fin N, ∑ g : Fin G, s.pending n g

end Migration

namespace Engine

/-- The per-cycle operations of `Metapopulation.cycle`, as trace labels. -/
inductive Step where
  | grow
  | mutate
  | migrate
  | census
  | log
  | mix
  | envchange
  | dilute
deriving DecidableEq

/-- The orchestration state of the `Metapopulation` engine: the simulation
clock, the cadence parameters, the fitness landscape and mutation matrix it
owns, the oracle stream of random effect-size draws (`effects_stream k` is
the `k`-th draw of `genome_length` per-locus effects), and the trace of
operations performed on the external per-node populations. -/
structure EngState where
  time : Nat
  mix_frequency : Nat
  env_change_frequency : Nat
  environment_changed : Bool
  genome_length : Nat
  base_fitness : ℝ
  production_cost : ℝ
  fitness_landscape : List ℝ
  mutation_probs : List (List ℝ)
  effects_stream : Nat → List ℝ
  draws : Nat
  trace : List Step

/-- `Metapopulation.grow`: delegated to every node's population. -/
def grow (s : EngState) : EngState :=
  { s with trace := s.trace ++ [Step.grow] }

/-- `Metapopulation.mutate`: delegated to every node's population. -/
def mutate (s : EngState) : EngState :=
  { s with trace := s.trace ++ [Step.mutate] }

/-- `Metapopulation.migrate` at the orchestration level (its internals are
modelled in the `Migration` namespace). -/
def migrate (s : EngState) : EngState :=
  { s with trace := s.trace ++ [Step.migrate] }

/-- `Metapopulation.census`: delegated to every node's population. -/
def census (s : EngState) : EngState :=
  { s with trace := s.trace ++ [Step.census] }

/-- `Metapopulation.write_logfiles`: notify the logging sinks. -/
def write_logfiles (s : EngState) : EngState :=
  { s with trace := s.trace ++ [Step.log] }

/-- `Metapopulation.mix`: combine and redistribute all abundances. -/
def mix (s : EngState) : EngState :=
  { s with trace := s.trace ++ [Step.mix] }

/-- `Metapopulation.dilute`: dilute every node's population. -/
def dilute (s : EngState) : EngState :=
  { s with trace := s.trace ++ [Step.dilute] }

/-- `Metapopulation.change_environment`: rebuild the fitness landscape from
a fresh draw of per-locus effects, then bottleneck every population and
reset its adaptation loci (delegated; covered by the `envchange` label).
The mutation-probability matrix is not touched. -/
def change_environment (s : EngState) : EngState :=
  { s with
    fitness_landscape :=
      build_fitness_landscape s.genome_length s.base_fitness s.production_cost
        (s.effects_stream s.draws)
    draws := s.draws + 1
    trace := s.trace ++ [Step.envchange] }

/-- The condition of `Metapopulation.cycle` guarding the mix step. -/
def mixDue (s : EngState) : Prop :=
  0 < s.mix_frequency ∧ 0 < s.time ∧ s.time % s.mix_frequency = 0

/-- The condition of `Metapopulation.cycle` guarding environment change. -/
def envChangeDue (s : EngState) : Prop :=
  0 < s.env_change_frequency ∧ 0 < s.time ∧ s.time % s.env_change_frequency = 0

instance (s : EngState) : Decidable (mixDue s) := by
  unfold mixDue; infer_instance

instance (s : EngState) : Decidable (envChangeDue s) := by
  unfold envChangeDue; infer_instance

/-- `Metapopulation.cycle`: grow, mutate, migrate, census, log, conditional
mix, then either environment change (marking `environment_changed`) or
dilution, and finally advance the clock by one. -/
def cycle (s : EngState) : EngState :=
  let s1 := grow s
  let s2 := mutate s1
  let s3 := migrate s2
  let s4 := census s3
  let s5 := write_logfiles s4
  let s6 := if mixDue s5 then mix s5 else s5
  let s7 :=
    if envChangeDue s6 then
      { change_environment s6 with environment_changed := true }
    else
      { dilute s6 with environment_changed := false }
  { s7 with time := s7.time + 1 }

/-- `Metapopulation.__init__`, restricted to the engine state above: the
clock starts at 0, the mutation-probability matrix is built once from the
two mutation rates, and the initial fitness landscape is built from the
first draw of the effects stream. -/
def initState (genome_length : Nat) (base_fitness production_cost : ℝ)
    (mutation_rate_social mutation_rate_adaptation : ℝ)
    (mix_frequency env_change_frequency : Nat)
    (effects_stream : Nat → List ℝ) : EngState :=
  { time := 0
    mix_frequency := mix_frequency
    env_change_frequency := env_change_frequency
    environment_changed := false
    genome_length := genome_length
    base_fitness := base_fitness
    production_cost := production_cost
    fitness_landscape :=
      build_fitness_landscape genome_length base_fitness production_cost
        (effects_stream 0)
    mutation_probs :=
      get_mutation_probabilities genome_length mutation_rate_social
        mutation_rate_adaptation
    effects_stream := effects_stream
    draws := 1
    trace := [] }

end Engine

namespace Metapopulation

/-- The engine's view of its per-node external populations for the summary
queries: each node reports its size (`len(population)`) and its number of
producers (`population.num_producers()`). -/
structure PopView (N : Nat) where
  popsize : Fin N → Nat
  popproducers : Fin N → Nat

/-- `Metapopulation.size`: the sum of the sizes of the subpopulations. -/
def size {N : Nat} (m : PopView N) : Nat :=
  ∑ n : Fin N, m.popsize n

/-- `Metapopulation.num_producers`: the total number of producers. -/
def num_producers {N : Nat} (m : PopView N) : Nat :=
  ∑ n : Fin N, m.popproducers n

/-- The result of `Metapopulation.prop_producers`: either the string
sentinel `'NA'` or the ratio `1.0 * num_producers / size` (modelled as an
exact rational). -/
inductive PropProducers where
  | NA
  | val (q : ℚ)
deriving DecidableEq

/-- `Metapopulation.prop_producers`: `'NA'` when the metapopulation is
empty, otherwise the proportion of producers. -/
def prop_producers {N : Nat} (m : PopView N) : PropProducers :=
  if size m = 0 then PropProducers.NA
  else PropProducers.val ((num_producers m : ℚ) / (size m : ℚ))

end Metapopulation

/-- The `initial_state == 'corners'` branch of `Metapopulation.__init__`:
node `0` gets abundance `max_cap` at genotype `2^genome_length` and is
diluted; node `len(topology)-1` gets abundance `min_cap` at genotype `0`
and is diluted; the dilution performed by the external population is the
oracle `dil`.  Modelled from the spec: a freshly constructed `Population`
(not under `src/`) has the all-zero abundance vector, so untouched nodes
start empty. -/
def corners_seed (num_nodes genome_length max_cap min_cap : Nat)
    (dil : (Nat → Nat) → (Nat → Nat)) (n : Nat) : Nat → Nat :=
  if n = 0 then
    dil (Function.update (fun _ => 0) (2 ^ genome_length) max_cap)
  else if n = num_nodes - 1 then
    dil (Function.update (fun _ => 0) 0 min_cap)
  else
    fun _ => 0

/-!
## Theorems
-/

theorem bitsValue_append_bit (l : List Nat) (b : Nat) :
    bitsValue (l ++ [b]) = 2 * bitsValue l + b := by
  unfold bitsValue
  have hlen : (l ++ [b]).length = l.length + 1 := by simp
  rw [hlen, Finset.sum_range_succ]
  have hlast : (l ++ [b]).getD l.length 0 * 2 ^ (l.length + 1 - 1 - l.length) = b := by
    simp [List.getD_append_right]
  rw [hlast]
  have hcongr :
      ∑ i ∈ Finset.range l.length, (l ++ [b]).getD i 0 * 2 ^ (l.length + 1 - 1 - i)
        = ∑ i ∈ Finset.range l.length, 2 * (l.getD i 0 * 2 ^ (l.length - 1 - i)) := by
    refine Finset.sum_congr rfl ?_
    intro i hi
    have hi' : i < l.length := Finset.mem_range.mp hi
    have hget : (l ++ [b]).getD i 0 = l.getD i 0 := by
      simp [List.getD_eq_getElem?_getD, List.getElem?_append_left hi']
    have hpow : l.length + 1 - 1 - i = (l.length - 1 - i) + 1 := by omega
    rw [hget, hpow, pow_succ]
    ring
  rw [hcongr, ← Finset.mul_sum]

theorem bitsValue_rawBits (n : Nat) : bitsValue (genome.rawBits n) = n := by
  induction n using Nat.strong_induction_on with
  | _ n ih =>
    match n with
    | 0 => simp [genome.rawBits, bitsValue]
    | (m + 1) =>
      rw [genome.rawBits, bitsValue_append_bit,
        ih ((m + 1) / 2) (Nat.div_lt_self (Nat.succ_pos m) (by omega))]
      omega

theorem rawBits_head (n : Nat) (h : 0 < n) : (genome.rawBits n).head? = some 1 := by
  induction n using Nat.strong_induction_on with
  | _ n ih =>
    match n with
    | (m + 1) =>
      rw [genome.rawBits]
      rcases Nat.eq_zero_or_pos ((m + 1) / 2) with h0 | hp
      · have hm : m = 0 := by omega
        subst hm
        simp [h0, genome.rawBits]
      · have hh := ih ((m + 1) / 2) (Nat.div_lt_self (Nat.succ_pos m) (by omega)) hp
        rw [List.head?_append_of_ne_nil]
        · exact hh
        · intro hnil
          rw [hnil] at hh
          simp at hh

theorem rawBits_le_one (n : Nat) : ∀ b ∈ genome.rawBits n, b ≤ 1 := by
  induction n using Nat.strong_induction_on with
  | _ n ih =>
    match n with
    | 0 => simp [genome.rawBits]
    | (m + 1) =>
      rw [genome.rawBits]
      intro b hb
      rcases List.mem_append.mp hb with hmem | hmem
      · exact ih ((m + 1) / 2) (Nat.div_lt_self (Nat.succ_pos m) (by omega)) b hmem
      · simp at hmem
        omega

theorem rawBits_length_le (w : Nat) :
    ∀ g, g < 2 ^ w → (genome.rawBits g).length ≤ w := by
  induction w with
  | zero =>
    intro g hg
    interval_cases g
    simp [genome.rawBits]
  | succ w ih =>
    intro g hg
    rcases Nat.eq_zero_or_pos g with rfl | hpos
    · simp [genome.rawBits]
    · obtain ⟨m, rfl⟩ : ∃ m, g = m + 1 := ⟨g - 1, by omega⟩
      rw [genome.rawBits]
      have hdiv : (m + 1) / 2 < 2 ^ w := by
        rw [pow_succ] at hg
        omega
      have := ih ((m + 1) / 2) hdiv
      simp only [List.length_append, List.length_singleton]
      omega

theorem bitsValue_lt (a : List Nat) (hb : ∀ b ∈ a, b ≤ 1) :
    bitsValue a < 2 ^ a.length := by
  induction a using List.reverseRecOn with
  | nil => simp [bitsValue]
  | append_singleton l x ih =>
    have hl : ∀ b ∈ l, b ≤ 1 := fun b hbl => hb b (List.mem_append_left _ hbl)
    have hx : x ≤ 1 := hb x (List.mem_append_right _ (List.mem_singleton_self x))
    have := ih hl
    rw [bitsValue_append_bit]
    simp only [List.length_append, List.length_singleton, pow_succ]
    omega

theorem int64_wrap_eq_self (x : ℤ) (h0 : 0 ≤ x) (h1 : x < 2 ^ 63) :
    genome.int64_wrap x = x := by
  unfold genome.int64_wrap
  norm_num at h1 ⊢
  omega

theorem bitstring_short (a : List Nat) (hb : ∀ b ∈ a, b ≤ 1)
    (hl : a.length ≤ 63) :
    genome.bitstring_as_base10 a = (bitsValue a : ℤ) := by
  unfold genome.bitstring_as_base10
  have hcast : (∑ i ∈ Finset.range a.length,
      (a.getD i 0 : ℤ) * 2 ^ (a.length - 1 - i)) = ((bitsValue a : ℕ) : ℤ) := by
    unfold bitsValue
    push_cast
    rfl
  have hlt : ((bitsValue a : ℕ) : ℤ) < 2 ^ 63 := by
    have h1 := bitsValue_lt a hb
    have h2 : (2 : ℕ) ^ a.length ≤ 2 ^ 63 :=
      Nat.pow_le_pow_right (by omega) hl
    exact_mod_cast lt_of_lt_of_le h1 h2
  rw [hcast, int64_wrap_eq_self _ (by positivity) hlt]

theorem rawBits_two_pow (L : Nat) :
    genome.rawBits (2 ^ L) = 1 :: List.replicate L 0 := by
  induction L with
  | zero =>
    rw [pow_zero, show (1 : ℕ) = 0 + 1 from rfl, genome.rawBits]
    simp [genome.rawBits]
  | succ L ih =>
    obtain ⟨k, hk⟩ : ∃ k, 2 ^ (L + 1) = k + 1 :=
      ⟨2 ^ (L + 1) - 1, by have := pow_pos (show (0 : ℕ) < 2 by omega) (L + 1); omega⟩
    rw [hk, genome.rawBits, ← hk]
    have h1 : 2 ^ (L + 1) / 2 = 2 ^ L := by
      rw [pow_succ]
      omega
    have h2 : 2 ^ (L + 1) % 2 = 0 := by
      rw [pow_succ]
      omega
    rw [h1, h2, ih, List.replicate_succ']
    rfl

/-- C10 counterexample: at `g = 2^63` the encode side of the round-trip
fails on the code: `base10_as_bitarray (2^63)` is a 64-entry bit array, so
numpy's `int64` weight `2^63` overflows to `-2^63` and
`bitstring_as_base10` returns `-2^63 ≠ 2^63`. -/
theorem genome_codec_roundtrip_counterexample :
    ¬ genome.bitstring_as_base10 (genome.base10_as_bitarray (2 ^ 63))
        = ((2 ^ 63 : Nat) : ℤ) := by
  have hb : genome.base10_as_bitarray (2 ^ 63) = 1 :: List.replicate 63 0 := by
    unfold genome.base10_as_bitarray
    rw [if_neg (by have := pow_pos (show (0 : ℕ) < 2 by omega) 63; omega),
      rawBits_two_pow]
  rw [hb]
  decide

/-- C10 (amended): for every natural number `g < 2^63` — below the `int64`
wrap-around threshold of the numpy encode side — encoding the decoded bit
sequence round-trips: `bitstring_as_base10 (base10_as_bitarray g) = g`; for
`g ≥ 2^63` the 64-bit weights wrap and the round-trip fails.  Decoding `0`
yields the one-element sequence `[0]` (not an empty sequence), and the
decoded sequence of any positive `g` is its minimal
most-significant-bit-first binary expansion: it starts with digit `1` and
every digit is a bit. -/
theorem genome_codec_roundtrip_amended (g : Nat) :
    (g < 2 ^ 63 →
      genome.bitstring_as_base10 (genome.base10_as_bitarray g) = (g : ℤ)) ∧
    genome.base10_as_bitarray 0 = [0] ∧
    (0 < g → (genome.base10_as_bitarray g).head? = some 1 ∧
      ∀ b ∈ genome.base10_as_bitarray g, b ≤ 1) := by
  refine ⟨?_, rfl, ?_⟩
  · intro hg
    rcases Nat.eq_zero_or_pos g with rfl | hpos
    · decide
    · unfold genome.base10_as_bitarray
      rw [if_neg (by omega),
        bitstring_short _ (rawBits_le_one g) (rawBits_length_le 63 g hg),
        bitsValue_rawBits g]
  · intro hg
    unfold genome.base10_as_bitarray
    rw [if_neg (by omega)]
    exact ⟨rawBits_head g hg, rawBits_le_one g⟩

theorem genome_codec_roundtrip_amended_witness :
    6 < 2 ^ 63 ∧ 0 < 6 ∧
      genome.bitstring_as_base10 (genome.base10_as_bitarray 6) = (6 : ℤ) :=
  ⟨by norm_num, by norm_num,
    (genome_codec_roundtrip_amended 6).1 (by norm_num)⟩

theorem bitsFixed_zero (w : Nat) : bitsFixed w 0 = List.replicate w 0 := by
  induction w with
  | zero => rfl
  | succ w ih =>
    rw [bitsFixed]
    simp [ih, List.replicate_succ']

theorem padTo_append_bit (w : Nat) (l : List Nat) (x : Nat) :
    padTo (w + 1) (l ++ [x]) = padTo w l ++ [x] := by
  unfold padTo
  rw [List.length_append]
  simp only [List.length_singleton]
  rw [show w + 1 - (l.length + 1) = w - l.length from by omega, List.append_assoc]

theorem padTo_rawBits (w : Nat) :
    ∀ i, 0 < i → i < 2 ^ w → padTo w (genome.rawBits i) = bitsFixed w i := by
  induction w with
  | zero =>
    intro i hpos hlt
    omega
  | succ w ih =>
    intro i hpos hlt
    obtain ⟨m, rfl⟩ : ∃ m, i = m + 1 := ⟨i - 1, by omega⟩
    rw [genome.rawBits, bitsFixed, padTo_append_bit]
    rcases Nat.eq_zero_or_pos ((m + 1) / 2) with h0 | hp
    · rw [h0]
      simp [genome.rawBits, bitsFixed_zero, padTo]
    · have hdiv : (m + 1) / 2 < 2 ^ w := by
        rw [pow_succ] at hlt
        omega
      rw [ih ((m + 1) / 2) hp hdiv]

theorem padTo_base10 (w i : Nat) (hw : 1 ≤ w) (hi : i < 2 ^ w) :
    padTo w (genome.base10_as_bitarray i) = bitsFixed w i := by
  rcases Nat.eq_zero_or_pos i with rfl | hpos
  · unfold genome.base10_as_bitarray
    rw [if_pos rfl, bitsFixed_zero]
    unfold padTo
    obtain ⟨v, rfl⟩ : ∃ v, w = v + 1 := ⟨w - 1, by omega⟩
    simp [List.replicate_succ']
  · unfold genome.base10_as_bitarray
    rw [if_neg (by omega)]
    exact padTo_rawBits w i hpos hi

theorem bitsFixed_split (L : Nat) :
    ∀ i, i < 2 ^ L →
      bitsFixed (L + 1) i = 0 :: bitsFixed L i ∧
      bitsFixed (L + 1) (2 ^ L + i) = 1 :: bitsFixed L i := by
  induction L with
  | zero =>
    intro i hi
    interval_cases i
    constructor <;> rfl
  | succ L ih =>
    intro i hi
    have hdiv : i / 2 < 2 ^ L := by
      rw [pow_succ] at hi
      omega
    have h1 : (2 ^ (L + 1) + i) / 2 = 2 ^ L + i / 2 := by
      rw [pow_succ]
      omega
    have h2 : (2 ^ (L + 1) + i) % 2 = i % 2 := by
      rw [pow_succ]
      omega
    constructor
    · show bitsFixed (L + 1) (i / 2) ++ [i % 2] = 0 :: bitsFixed (L + 1) i
      rw [(ih (i / 2) hdiv).1]
      show 0 :: (bitsFixed L (i / 2) ++ [i % 2]) = _
      rfl
    · show bitsFixed (L + 1) ((2 ^ (L + 1) + i) / 2) ++ [(2 ^ (L + 1) + i) % 2]
        = 1 :: bitsFixed (L + 1) i
      rw [h1, h2, (ih (i / 2) hdiv).2]
      show 1 :: (bitsFixed L (i / 2) ++ [i % 2]) = _
      rfl

theorem landscape_getD (L : Nat) (base cost : ℝ) (effects0 : List ℝ)
    (hlen : effects0.length = L) (i : Nat) (hi : i < 2 ^ (L + 1)) :
    (build_fitness_landscape L base cost effects0).getD i 0
      = (List.zipWith (fun (b : Nat) (e : ℝ) => (b : ℝ) * e)
          (bitsFixed (L + 1) i) ((-cost) :: effects0)).sum + (base + cost) := by
  unfold build_fitness_landscape
  simp only [List.getD_eq_getElem?_getD, List.getElem?_map, List.getElem?_range hi,
    Option.map_some', Option.getD_some]
  have hw : ((-cost) :: effects0).length = L + 1 := by simp [hlen]
  rw [hw, padTo_base10 (L + 1) i (by omega) hi]

/-- C1: for every adaptation-genome length `L` and base fitness `≥ 0`,
`build_fitness_landscape` returns a table with exactly `2^(L+1)` entries,
and for every non-producer genotype `i < 2^L` and its matching producer
genotype `i + 2^L`, `landscape[i] - landscape[i + 2^L] = production_cost`
exactly, for every draw of the `L` per-locus effect sizes. -/
theorem fitness_landscape_producer_cost (L : Nat) (base cost : ℝ)
    (effects0 : List ℝ) (hbase : 0 ≤ base) (hlen : effects0.length = L) :
    (build_fitness_landscape L base cost effects0).length = 2 ^ (L + 1) ∧
    ∀ i < 2 ^ L,
      (build_fitness_landscape L base cost effects0).getD i 0
        - (build_fitness_landscape L base cost effects0).getD (i + 2 ^ L) 0
        = cost := by
  constructor
  · simp [build_fitness_landscape]
  · intro i hi
    have hi1 : i < 2 ^ (L + 1) := by
      rw [pow_succ]
      omega
    have hi2 : i + 2 ^ L < 2 ^ (L + 1) := by
      rw [pow_succ]
      omega
    rw [landscape_getD L base cost effects0 hlen i hi1,
      landscape_getD L base cost effects0 hlen (i + 2 ^ L) hi2,
      show i + 2 ^ L = 2 ^ L + i from Nat.add_comm _ _,
      (bitsFixed_split L i hi).1, (bitsFixed_split L i hi).2]
    simp only [List.zipWith_cons_cons, List.sum_cons, Nat.cast_zero, Nat.cast_one]
    ring

theorem fitness_landscape_producer_cost_witness :
    (0 : ℝ) ≤ 0 ∧ ([] : List ℝ).length = 0 ∧
      (build_fitness_landscape 0 0 1 []).length = 2 ^ (0 + 1) :=
  ⟨le_refl 0, rfl, (fitness_landscape_producer_cost 0 0 1 [] (le_refl 0) rfl).1⟩

theorem count_ones_base10 (x : Nat) :
    (genome.base10_as_bitarray x).count 1 = (genome.rawBits x).count 1 := by
  unfold genome.base10_as_bitarray
  split
  · rename_i h
    subst h
    simp [genome.rawBits]
  · rfl

theorem popc_rec (n : Nat) :
    (genome.base10_as_bitarray n).count 1
      = (genome.base10_as_bitarray (n / 2)).count 1 + n % 2 := by
  rw [count_ones_base10, count_ones_base10]
  rcases Nat.eq_zero_or_pos n with rfl | hpos
  · simp
  · obtain ⟨m, rfl⟩ : ∃ m, n = m + 1 := ⟨n - 1, by omega⟩
    rw [genome.rawBits, List.count_append]
    have h01 : (m + 1) % 2 = 0 ∨ (m + 1) % 2 = 1 := by omega
    rcases h01 with h | h <;> rw [h] <;> simp

theorem xor_div_two (a b : Nat) : (a ^^^ b) / 2 = (a / 2) ^^^ (b / 2) := by
  apply Nat.eq_of_testBit_eq
  intro i
  simp [Nat.testBit_div_two, Nat.testBit_xor]

theorem hamming_rec (a b : Nat) :
    genome.hamming_distance a b
      = genome.hamming_distance (a / 2) (b / 2)
        + (if a % 2 = b % 2 then 0 else 1) := by
  unfold genome.hamming_distance
  rw [popc_rec, xor_div_two]
  have hx : (a ^^^ b) % 2 = (a + b) % 2 := Nat.xor_mod_two_eq
  split <;> omega

theorem hamming_zero : genome.hamming_distance 0 0 = 0 := by
  simp [genome.hamming_distance, genome.base10_as_bitarray]

theorem hamming_le (L : Nat) :
    ∀ a b, a < 2 ^ L → b < 2 ^ L → genome.hamming_distance a b ≤ L := by
  induction L with
  | zero =>
    intro a b ha hb
    interval_cases a
    interval_cases b
    simp [hamming_zero]
  | succ L ih =>
    intro a b ha hb
    rw [pow_succ] at ha hb
    have h2 := ih (a / 2) (b / 2) (by omega) (by omega)
    rw [hamming_rec]
    split <;> omega

theorem hamming_one_zero : genome.hamming_distance 1 0 = 1 := by
  simp [genome.hamming_distance, genome.base10_as_bitarray, genome.rawBits]

theorem hamming_comm (a b : Nat) :
    genome.hamming_distance a b = genome.hamming_distance b a := by
  unfold genome.hamming_distance
  rw [Nat.xor_comm]

theorem hamming_both (L : Nat) :
    ∀ i j, i < 2 ^ L → j < 2 ^ L →
      genome.hamming_distance (2 ^ L + i) (2 ^ L + j)
        = genome.hamming_distance i j := by
  induction L with
  | zero =>
    intro i j hi hj
    interval_cases i
    interval_cases j
    simp [genome.hamming_distance, genome.base10_as_bitarray]
  | succ L ih =>
    intro i j hi hj
    have hpow : 2 ^ (L + 1) = 2 ^ L * 2 := by rw [pow_succ]
    have hd1 : (2 ^ (L + 1) + i) / 2 = 2 ^ L + i / 2 := by
      rw [hpow]
      omega
    have hd2 : (2 ^ (L + 1) + j) / 2 = 2 ^ L + j / 2 := by
      rw [hpow]
      omega
    have hm1 : (2 ^ (L + 1) + i) % 2 = i % 2 := by
      rw [hpow]
      omega
    have hm2 : (2 ^ (L + 1) + j) % 2 = j % 2 := by
      rw [hpow]
      omega
    have hi2 : i / 2 < 2 ^ L := by
      rw [hpow] at hi
      omega
    have hj2 : j / 2 < 2 ^ L := by
      rw [hpow] at hj
      omega
    rw [hamming_rec (2 ^ (L + 1) + i) (2 ^ (L + 1) + j), hd1, hd2, hm1, hm2,
      ih (i / 2) (j / 2) hi2 hj2, hamming_rec i j]

theorem hamming_high_left (L : Nat) :
    ∀ i j, i < 2 ^ L → j < 2 ^ L →
      genome.hamming_distance (2 ^ L + i) j
        = genome.hamming_distance i j + 1 := by
  induction L with
  | zero =>
    intro i j hi hj
    interval_cases i
    interval_cases j
    rw [hamming_zero]
    exact hamming_one_zero
  | succ L ih =>
    intro i j hi hj
    have hpow : 2 ^ (L + 1) = 2 ^ L * 2 := by rw [pow_succ]
    have hd1 : (2 ^ (L + 1) + i) / 2 = 2 ^ L + i / 2 := by
      rw [hpow]
      omega
    have hm1 : (2 ^ (L + 1) + i) % 2 = i % 2 := by
      rw [hpow]
      omega
    have hi2 : i / 2 < 2 ^ L := by
      rw [hpow] at hi
      omega
    have hj2 : j / 2 < 2 ^ L := by
      rw [hpow] at hj
      omega
    rw [hamming_rec (2 ^ (L + 1) + i) j, hd1, hm1,
      ih (i / 2) (j / 2) hi2 hj2, hamming_rec i j]
    ring

theorem hamming_high_right (L i j : Nat) (hi : i < 2 ^ L) (hj : j < 2 ^ L) :
    genome.hamming_distance i (2 ^ L + j)
      = genome.hamming_distance i j + 1 := by
  rw [hamming_comm, hamming_high_left L j i hj hi, hamming_comm]

theorem adapt_sum (L : Nat) (ma : ℝ) :
    ∀ i, i < 2 ^ L →
      ∑ j ∈ Finset.range (2 ^ L),
        (1 - ma) ^ (L - genome.hamming_distance i j)
          * ma ^ genome.hamming_distance i j = 1 := by
  induction L with
  | zero =>
    intro i hi
    interval_cases i
    simp [hamming_zero]
  | succ L ih =>
    intro i hi
    have hsplit : 2 ^ (L + 1) = 2 ^ L + 2 ^ L := by
      rw [pow_succ]
      omega
    rw [hsplit, Finset.sum_range_add]
    rcases Nat.lt_or_ge i (2 ^ L) with hlow | hhigh
    · have e1 : ∀ j ∈ Finset.range (2 ^ L),
          (1 - ma) ^ (L + 1 - genome.hamming_distance i j)
              * ma ^ genome.hamming_distance i j
            = (1 - ma) * ((1 - ma) ^ (L - genome.hamming_distance i j)
              * ma ^ genome.hamming_distance i j) := by
        intro j hj
        have hH : genome.hamming_distance i j ≤ L :=
          hamming_le L i j hlow (Finset.mem_range.mp hj)
        rw [show L + 1 - genome.hamming_distance i j
            = (L - genome.hamming_distance i j) + 1 from by omega, pow_succ]
        ring
      have e2 : ∀ j ∈ Finset.range (2 ^ L),
          (1 - ma) ^ (L + 1 - genome.hamming_distance i (2 ^ L + j))
              * ma ^ genome.hamming_distance i (2 ^ L + j)
            = ma * ((1 - ma) ^ (L - genome.hamming_distance i j)
              * ma ^ genome.hamming_distance i j) := by
        intro j hj
        have hj' := Finset.mem_range.mp hj
        have hH : genome.hamming_distance i j ≤ L := hamming_le L i j hlow hj'
        rw [hamming_high_right L i j hlow hj',
          show L + 1 - (genome.hamming_distance i j + 1)
            = L - genome.hamming_distance i j from by omega, pow_succ]
        ring
      rw [Finset.sum_congr rfl e1, Finset.sum_congr rfl e2,
        ← Finset.mul_sum, ← Finset.mul_sum, ih i hlow]
      ring
    · obtain ⟨p, rfl⟩ : ∃ p, i = 2 ^ L + p := ⟨i - 2 ^ L, by omega⟩
      have hp : p < 2 ^ L := by
        rw [hsplit] at hi
        omega
      have e1 : ∀ j ∈ Finset.range (2 ^ L),
          (1 - ma) ^ (L + 1 - genome.hamming_distance (2 ^ L + p) j)
              * ma ^ genome.hamming_distance (2 ^ L + p) j
            = ma * ((1 - ma) ^ (L - genome.hamming_distance p j)
              * ma ^ genome.hamming_distance p j) := by
        intro j hj
        have hj' := Finset.mem_range.mp hj
        have hH : genome.hamming_distance p j ≤ L := hamming_le L p j hp hj'
        rw [hamming_high_left L p j hp hj',
          show L + 1 - (genome.hamming_distance p j + 1)
            = L - genome.hamming_distance p j from by omega, pow_succ]
        ring
      have e2 : ∀ j ∈ Finset.range (2 ^ L),
          (1 - ma) ^ (L + 1 - genome.hamming_distance (2 ^ L + p) (2 ^ L + j))
              * ma ^ genome.hamming_distance (2 ^ L + p) (2 ^ L + j)
            = (1 - ma) * ((1 - ma) ^ (L - genome.hamming_distance p j)
              * ma ^ genome.hamming_distance p j) := by
        intro j hj
        have hj' := Finset.mem_range.mp hj
        have hH : genome.hamming_distance p j ≤ L := hamming_le L p j hp hj'
        rw [hamming_both L p j hp hj',
          show L + 1 - genome.hamming_distance p j
            = (L - genome.hamming_distance p j) + 1 from by omega, pow_succ]
        ring
      rw [Finset.sum_congr rfl e1, Finset.sum_congr rfl e2,
        ← Finset.mul_sum, ← Finset.mul_sum, ih p hp]
      ring

theorem mr_row_sum (L : Nat) (ms ma : ℝ) (i : Nat) (hi : i < 2 ^ (L + 1)) :
    ∑ j ∈ Finset.range (2 ^ (L + 1)), mr L ms ma i j = 1 := by
  have hsplit : 2 ^ (L + 1) = 2 ^ L + 2 ^ L := by
    rw [pow_succ]
    omega
  rw [hsplit, Finset.sum_range_add]
  rcases Nat.lt_or_ge i (2 ^ L) with hlow | hhigh
  · have e1 : ∀ j ∈ Finset.range (2 ^ L),
        mr L ms ma i j
          = (1 - ms) * ((1 - ma) ^ (L - genome.hamming_distance i j)
            * ma ^ genome.hamming_distance i j) := by
      intro j hj
      have hj' := Finset.mem_range.mp hj
      have hS : S_mat L i j = 0 := by
        unfold S_mat
        rw [if_pos (iff_of_true hlow hj')]
      have hNS : nonsocial_hd L i j = genome.hamming_distance i j := by
        unfold nonsocial_hd
        rw [hS, Nat.sub_zero]
      unfold mr
      rw [hNS, hS]
      simp only [Nat.sub_zero, pow_one, pow_zero, mul_one]
      ring
    have e2 : ∀ j ∈ Finset.range (2 ^ L),
        mr L ms ma i (2 ^ L + j)
          = ms * ((1 - ma) ^ (L - genome.hamming_distance i j)
            * ma ^ genome.hamming_distance i j) := by
      intro j hj
      have hj' := Finset.mem_range.mp hj
      have hS : S_mat L i (2 ^ L + j) = 1 := by
        unfold S_mat
        rw [if_neg]
        intro hiff
        have : 2 ^ L + j < 2 ^ L := hiff.mp hlow
        omega
      have hNS : nonsocial_hd L i (2 ^ L + j) = genome.hamming_distance i j := by
        unfold nonsocial_hd
        rw [hS, hamming_high_right L i j hlow hj']
        omega
      unfold mr
      rw [hNS, hS]
      simp only [Nat.sub_self, pow_zero, pow_one, one_mul, mul_one]
      ring
    rw [Finset.sum_congr rfl e1, Finset.sum_congr rfl e2,
      ← Finset.mul_sum, ← Finset.mul_sum, adapt_sum L ma i hlow]
    ring
  · obtain ⟨p, rfl⟩ : ∃ p, i = 2 ^ L + p := ⟨i - 2 ^ L, by omega⟩
    have hp : p < 2 ^ L := by
      rw [hsplit] at hi
      omega
    have hnl : ¬ 2 ^ L + p < 2 ^ L := by omega
    have e1 : ∀ j ∈ Finset.range (2 ^ L),
        mr L ms ma (2 ^ L + p) j
          = ms * ((1 - ma) ^ (L - genome.hamming_distance p j)
            * ma ^ genome.hamming_distance p j) := by
      intro j hj
      have hj' := Finset.mem_range.mp hj
      have hS : S_mat L (2 ^ L + p) j = 1 := by
        unfold S_mat
        rw [if_neg]
        intro hiff
        exact hnl (hiff.mpr hj')
      have hNS : nonsocial_hd L (2 ^ L + p) j = genome.hamming_distance p j := by
        unfold nonsocial_hd
        rw [hS, hamming_high_left L p j hp hj']
        omega
      unfold mr
      rw [hNS, hS]
      simp only [Nat.sub_self, pow_zero, pow_one, one_mul, mul_one]
      ring
    have e2 : ∀ j ∈ Finset.range (2 ^ L),
        mr L ms ma (2 ^ L + p) (2 ^ L + j)
          = (1 - ms) * ((1 - ma) ^ (L - genome.hamming_distance p j)
            * ma ^ genome.hamming_distance p j) := by
      intro j hj
      have hj' := Finset.mem_range.mp hj
      have hS : S_mat L (2 ^ L + p) (2 ^ L + j) = 0 := by
        unfold S_mat
        rw [if_pos (iff_of_false hnl (by omega))]
      have hNS : nonsocial_hd L (2 ^ L + p) (2 ^ L + j)
          = genome.hamming_distance p j := by
        unfold nonsocial_hd
        rw [hS, hamming_both L p j hp hj', Nat.sub_zero]
      unfold mr
      rw [hNS, hS]
      simp only [Nat.sub_zero, pow_one, pow_zero, mul_one]
      ring
    rw [Finset.sum_congr rfl e1, Finset.sum_congr rfl e2,
      ← Finset.mul_sum, ← Finset.mul_sum, adapt_sum L ma p hp]
    ring

theorem sum_map_range (f : Nat → ℝ) (n : Nat) :
    ((List.range n).map f).sum = ∑ j ∈ Finset.range n, f j := by
  induction n with
  | zero => simp
  | succ n ih =>
    rw [List.range_succ, Finset.sum_range_succ]
    simp [ih]

/-- C2: for every genome length `L` and mutation rates in `[0,1]`, every row
of the matrix returned by `get_mutation_probabilities` sums to exactly 1 in
exact arithmetic: for every genotype `i < 2^(L+1)`, the sum over all
genotypes `j < 2^(L+1)` of
`(1-m_a)^(L-H_a) * m_a^H_a * (1-m_s)^(1-S) * m_s^S` equals 1, where `H_a` is
the adaptation-only Hamming distance and `S` the social-bit-differs
indicator. -/
theorem mutation_matrix_row_sum (L : Nat) (ms ma : ℝ)
    (hms0 : 0 ≤ ms) (hms1 : ms ≤ 1) (hma0 : 0 ≤ ma) (hma1 : ma ≤ 1)
    (i : Nat) (hi : i < 2 ^ (L + 1)) :
    ((get_mutation_probabilities L ms ma).getD i []).sum = 1 := by
  have hrow : (get_mutation_probabilities L ms ma).getD i []
      = (List.range (2 ^ (L + 1))).map (fun j => mr L ms ma i j) := by
    unfold get_mutation_probabilities
    simp [List.getD_eq_getElem?_getD, List.getElem?_map, List.getElem?_range hi]
  rw [hrow, sum_map_range, mr_row_sum L ms ma i hi]

theorem mutation_matrix_row_sum_witness :
    (0 : ℝ) ≤ (1 : ℝ) / 2 ∧ (1 : ℝ) / 2 ≤ 1 ∧ (0 : ℝ) ≤ (1 : ℝ) / 3 ∧
      (1 : ℝ) / 3 ≤ 1 ∧ 1 < 2 ^ (1 + 1) ∧
      ((get_mutation_probabilities 1 (1 / 2) (1 / 3)).getD 1 []).sum = 1 :=
  ⟨by norm_num, by norm_num, by norm_num, by norm_num, by norm_num,
    mutation_matrix_row_sum 1 (1 / 2) (1 / 3) (by norm_num) (by norm_num)
      (by norm_num) (by norm_num) 1 (by norm_num)⟩

namespace Migration

theorem sum_univ_update {N : Nat} (F : Fin N → Nat) (d : Fin N) (v : Nat) :
    (∑ n : Fin N, Function.update F d v n) + F d = (∑ n : Fin N, F n) + v := by
  rw [Finset.sum_update_of_mem (Finset.mem_univ d),
    ← Finset.sum_erase_add Finset.univ F (Finset.mem_univ d),
    Finset.sdiff_singleton_eq_erase]
  omega

theorem liveTotal_add_immigrants {N G : Nat} (s : MigState N G) (dst : Fin N)
    (delta : Fin G → Nat) :
    liveTotal (add_immigrants s dst delta) = liveTotal s := rfl

theorem pendTotal_remove_emigrants {N G : Nat} (s : MigState N G) (src : Fin N)
    (delta : Fin G → Nat) :
    pendTotal (remove_emigrants s src delta) = pendTotal s := rfl

theorem pendTotal_add_immigrants {N G : Nat} (s : MigState N G) (dst : Fin N)
    (delta : Fin G → Nat) :
    pendTotal (add_immigrants s dst delta) = pendTotal s + ∑ g : Fin G, delta g := by
  unfold pendTotal add_immigrants
  have step : ∀ n : Fin N,
      (∑ g : Fin G,
        Function.update s.pending dst (fun g => s.pending dst g + delta g) n g)
      = Function.update (fun m => ∑ g : Fin G, s.pending m g) dst
          ((∑ g : Fin G, s.pending dst g) + ∑ g : Fin G, delta g) n := by
    intro n
    by_cases h : n = dst
    · subst h
      simp [Finset.sum_add_distrib]
    · simp [Function.update_apply, h]
  rw [Finset.sum_congr rfl (fun n _ => step n),
    Finset.sum_update_of_mem (Finset.mem_univ dst),
    Finset.sdiff_singleton_eq_erase,
    ← Finset.sum_erase_add Finset.univ _ (Finset.mem_univ dst)]
  omega

theorem liveTotal_remove_emigrants {N G : Nat} (s : MigState N G) (src : Fin N)
    (delta : Fin G → Nat) (hb : ∀ g, delta g ≤ s.live src g) :
    liveTotal (remove_emigrants s src delta) + (∑ g : Fin G, delta g)
      = liveTotal s := by
  unfold liveTotal remove_emigrants
  have step : ∀ n : Fin N,
      (∑ g : Fin G,
        Function.update s.live src (fun g => s.live src g - delta g) n g)
      = Function.update (fun m => ∑ g : Fin G, s.live m g) src
          (∑ g : Fin G, (s.live src g - delta g)) n := by
    intro n
    by_cases h : n = src
    · subst h
      simp
    · simp [Function.update_apply, h]
  have hsub : (∑ g : Fin G, (s.live src g - delta g)) + (∑ g : Fin G, delta g)
      = ∑ g : Fin G, s.live src g := by
    rw [← Finset.sum_add_distrib]
    exact Finset.sum_congr rfl (fun g _ => by have := hb g; omega)
  rw [Finset.sum_congr rfl (fun n _ => step n),
    Finset.sum_update_of_mem (Finset.mem_univ src),
    Finset.sdiff_singleton_eq_erase,
    ← Finset.sum_erase_add Finset.univ _ (Finset.mem_univ src)]
  omega

theorem liveTotal_census {N G : Nat} (s : MigState N G) :
    liveTotal (census s) = liveTotal s + pendTotal s := by
  unfold liveTotal pendTotal census
  rw [← Finset.sum_add_distrib]
  refine Finset.sum_congr rfl fun n _ => ?_
  rw [← Finset.sum_add_distrib]

theorem migrationEvent_conserve {N G : Nat}
    (select_migrants : MigState N G → Fin N → Fin G → Nat) (s : MigState N G)
    (src dst : Fin N) (hb : ∀ g, select_migrants s src g ≤ s.live src g) :
    liveTotal (migrationEvent select_migrants s src dst)
        + pendTotal (migrationEvent select_migrants s src dst)
      = liveTotal s + pendTotal s := by
  have h1 := liveTotal_remove_emigrants
    (add_immigrants { s with calls := s.calls ++ [PopCall.select_migrants src] }
      dst (select_migrants s src))
    src (select_migrants s src) hb
  have h2 := pendTotal_add_immigrants
    ({ s with calls := s.calls ++ [PopCall.select_migrants src] } : MigState N G)
    dst (select_migrants s src)
  have h3 : pendTotal (migrationEvent select_migrants s src dst)
      = pendTotal (add_immigrants
          { s with calls := s.calls ++ [PopCall.select_migrants src] }
          dst (select_migrants s src)) := rfl
  have h4 : liveTotal (add_immigrants
      { s with calls := s.calls ++ [PopCall.select_migrants src] }
      dst (select_migrants s src)) = liveTotal s := rfl
  have h5 : pendTotal ({ s with
      calls := s.calls ++ [PopCall.select_migrants src] } : MigState N G)
      = pendTotal s := rfl
  have h6 : liveTotal (migrationEvent select_migrants s src dst)
      = liveTotal (remove_emigrants
          (add_immigrants
            { s with calls := s.calls ++ [PopCall.select_migrants src] }
            dst (select_migrants s src))
          src (select_migrants s src)) := rfl
  rw [h3, h2, h5, h6]
  omega

theorem foldl_totals_preserved {N G : Nat} {α : Type}
    (step : MigState N G → α → MigState N G)
    (hstep : ∀ st a, liveTotal (step st a) + pendTotal (step st a)
      = liveTotal st + pendTotal st) :
    ∀ (l : List α) (st : MigState N G),
      liveTotal (List.foldl step st l) + pendTotal (List.foldl step st l)
        = liveTotal st + pendTotal st := by
  intro l
  induction l with
  | nil => intro st; rfl
  | cons a l ih =>
    intro st
    rw [List.foldl_cons, ih (step st a), hstep st a]

theorem migrate_totals_preserved {N G : Nat} (migration_rate : ℚ)
    (migration_dest : MigrationDest)
    (select_migrants : MigState N G → Fin N → Fin G → Nat)
    (dest : Fin N → Fin N) (dests : Fin N → List (Fin N)) (s : MigState N G)
    (hsel : ∀ st n g, select_migrants st n g ≤ st.live n g) :
    liveTotal (migrate migration_rate migration_dest select_migrants dest dests s)
        + pendTotal (migrate migration_rate migration_dest select_migrants dest dests s)
      = liveTotal s + pendTotal s := by
  unfold migrate
  by_cases hr : migration_rate = 0
  · rw [if_pos hr]
  · rw [if_neg hr]
    cases migration_dest with
    | single =>
      exact foldl_totals_preserved _
        (fun st n => migrationEvent_conserve select_migrants st n (dest n)
          (fun g => hsel st n g))
        (List.finRange N) s
    | neighbors =>
      exact foldl_totals_preserved _
        (fun st n => foldl_totals_preserved _
          (fun st2 d => migrationEvent_conserve select_migrants st2 n d
            (fun g => hsel st2 n g))
          (dests n) st)
        (List.finRange N) s

end Migration

/-- C4: for any migration rate and any resolved destinations (covering both
`single` and `neighbors` modes and any far-migration probability, including
0 and 1), the total abundance summed over all nodes is the same after one
`migrate()` call followed by one `census()` call as it was before
`migrate()`, assuming the `Population` contract: every `select_migrants`
call returns a delta bounded by the node's current live abundances, and the
pending-immigrant buffers are empty before migration.  No individuals are
created or destroyed by migration. -/
theorem migration_conserves_total {N G : Nat} (migration_rate : ℚ)
    (migration_dest : Migration.MigrationDest)
    (select_migrants : Migration.MigState N G → Fin N → Fin G → Nat)
    (dest : Fin N → Fin N) (dests : Fin N → List (Fin N))
    (s : Migration.MigState N G)
    (hsel : ∀ st n g, select_migrants st n g ≤ st.live n g)
    (hpend : ∀ n g, s.pending n g = 0) :
    Migration.liveTotal
        (Migration.census
          (Migration.migrate migration_rate migration_dest select_migrants
            dest dests s))
      = Migration.liveTotal s := by
  have hpend0 : Migration.pendTotal s = 0 := by
    unfold Migration.pendTotal
    simp [hpend]
  rw [Migration.liveTotal_census,
    Migration.migrate_totals_preserved migration_rate migration_dest
      select_migrants dest dests s hsel, hpend0]
  omega

theorem migration_conserves_total_witness :
    (∀ n g, (Migration.MigState.mk (N := 2) (G := 2)
        (fun _ _ => 3) (fun _ _ => 0) []).pending n g = 0) ∧
    Migration.liveTotal
        (Migration.census
          (Migration.migrate (N := 2) (G := 2) 1 Migration.MigrationDest.single
            (fun st n g => st.live n g) (fun _ => 0) (fun _ => [])
            (Migration.MigState.mk (fun _ _ => 3) (fun _ _ => 0) [])))
      = Migration.liveTotal
          (Migration.MigState.mk (N := 2) (G := 2)
            (fun _ _ => 3) (fun _ _ => 0) []) :=
  ⟨fun _ _ => rfl,
    migration_conserves_total 1 Migration.MigrationDest.single
      (fun st n g => st.live n g) (fun _ => 0) (fun _ => [])
      (Migration.MigState.mk (fun _ _ => 3) (fun _ _ => 0) [])
      (fun _ _ _ => Nat.le_refl _) (fun _ _ => rfl)⟩

/-- C8: if the configured migration rate is exactly 0, `migrate` returns
immediately: the resulting state — every node's live abundances, every
pending-immigrant buffer, and the record of `Population` calls — is exactly
the input state, so no `select_migrants`, `add_immigrants` or
`remove_emigrants` call is made and no error is signaled. -/
theorem migrate_zero_rate_noop {N G : Nat} (migration_rate : ℚ)
    (migration_dest : Migration.MigrationDest)
    (select_migrants : Migration.MigState N G → Fin N → Fin G → Nat)
    (dest : Fin N → Fin N) (dests : Fin N → List (Fin N))
    (s : Migration.MigState N G) (h : migration_rate = 0) :
    Migration.migrate migration_rate migration_dest select_migrants dest dests s
      = s := by
  unfold Migration.migrate
  rw [if_pos h]

theorem migrate_zero_rate_noop_witness :
    (0 : ℚ) = 0 ∧
    Migration.migrate (N := 1) (G := 1) 0 Migration.MigrationDest.neighbors
        (fun st n g => st.live n g) (fun _ => 0) (fun _ => [0])
        (Migration.MigState.mk (fun _ _ => 5) (fun _ _ => 0) [])
      = Migration.MigState.mk (fun _ _ => 5) (fun _ _ => 0) [] :=
  ⟨rfl,
    migrate_zero_rate_noop 0 Migration.MigrationDest.neighbors
      (fun st n g => st.live n g) (fun _ => 0) (fun _ => [0])
      (Migration.MigState.mk (fun _ _ => 5) (fun _ _ => 0) []) rfl⟩

set_option maxRecDepth 8000 in
theorem cycle_eq (s : Engine.EngState) :
    Engine.cycle s
      = { s with
          time := s.time + 1
          environment_changed := if Engine.envChangeDue s then true else false
          fitness_landscape :=
            if Engine.envChangeDue s then
              build_fitness_landscape s.genome_length s.base_fitness
                s.production_cost (s.effects_stream s.draws)
            else s.fitness_landscape
          draws := if Engine.envChangeDue s then s.draws + 1 else s.draws
          trace := s.trace
            ++ ([Engine.Step.grow, Engine.Step.mutate, Engine.Step.migrate,
                  Engine.Step.census, Engine.Step.log]
              ++ (if Engine.mixDue s then [Engine.Step.mix] else [])
              ++ (if Engine.envChangeDue s then [Engine.Step.envchange]
                  else [Engine.Step.dilute])) } := by
  simp only [Engine.cycle, Engine.grow, Engine.mutate, Engine.migrate,
    Engine.census, Engine.write_logfiles, Engine.mix, Engine.dilute,
    Engine.change_environment, Engine.mixDue, Engine.envChangeDue,
    List.append_assoc, List.cons_append, List.nil_append]
  split_ifs <;> first
    | rfl
    | simp_all

theorem cycle_time_eq (s : Engine.EngState) :
    (Engine.cycle s).time = s.time + 1 := by
  rw [cycle_eq]

theorem cycle_mutation_probs_eq (s : Engine.EngState) :
    (Engine.cycle s).mutation_probs = s.mutation_probs := by
  rw [cycle_eq]

theorem iterate_cycle_time (s0 : Engine.EngState) (k : Nat) :
    (Engine.cycle^[k] s0).time = s0.time + k := by
  induction k with
  | zero => simp
  | succ k ih =>
    rw [Function.iterate_succ_apply', cycle_time_eq, ih]
    omega

/-- C5: every `cycle()` call performs its steps in the fixed order grow,
mutate, migrate, census, log, conditional mix, then exactly one of
environment change or dilution; when it returns, `time` is exactly one plus
its value before the call; and starting from a freshly constructed engine
(`time = 0`), after `k` cycles the clock reads exactly `k`, so `time` is a
monotonically increasing integer counter. -/
theorem cycle_order_and_clock (s : Engine.EngState) :
    (Engine.cycle s).time = s.time + 1 ∧
    (Engine.cycle s).trace
      = s.trace
          ++ ([Engine.Step.grow, Engine.Step.mutate, Engine.Step.migrate,
                Engine.Step.census, Engine.Step.log]
            ++ (if Engine.mixDue s then [Engine.Step.mix] else [])
            ++ (if Engine.envChangeDue s then [Engine.Step.envchange]
                else [Engine.Step.dilute])) ∧
    (∀ (L : Nat) (b c ms ma : ℝ) (mf ef : Nat) (es : Nat → List ℝ) (k : Nat),
      (Engine.cycle^[k] (Engine.initState L b c ms ma mf ef es)).time = k) := by
  refine ⟨cycle_time_eq s, ?_, ?_⟩
  · rw [cycle_eq]
  · intro L b c ms ma mf ef es k
    rw [iterate_cycle_time]
    simp [Engine.initState]

/-- C6: in every `cycle()` call, environment change and dilution are
mutually exclusive and exhaustive: the environment is changed exactly when
`env_change_frequency > 0`, `time > 0` and `time % env_change_frequency = 0`
held at entry, and then `environment_changed` is `true` at the end of the
cycle and no dilution happens; in every other cycle exactly one dilution
happens, no environment change happens, and `environment_changed` is
`false`. -/
theorem env_change_xor_dilution (s : Engine.EngState) :
    ((Engine.cycle s).environment_changed = true ↔
      (0 < s.env_change_frequency ∧ 0 < s.time ∧
        s.time % s.env_change_frequency = 0)) ∧
    (Engine.envChangeDue s →
      ((Engine.cycle s).trace.drop s.trace.length).count Engine.Step.envchange
          = 1 ∧
      ((Engine.cycle s).trace.drop s.trace.length).count Engine.Step.dilute
          = 0) ∧
    (¬ Engine.envChangeDue s →
      ((Engine.cycle s).trace.drop s.trace.length).count Engine.Step.envchange
          = 0 ∧
      ((Engine.cycle s).trace.drop s.trace.length).count Engine.Step.dilute
          = 1) := by
  have hdrop : (Engine.cycle s).trace.drop s.trace.length
      = [Engine.Step.grow, Engine.Step.mutate, Engine.Step.migrate,
          Engine.Step.census, Engine.Step.log]
        ++ (if Engine.mixDue s then [Engine.Step.mix] else [])
        ++ (if Engine.envChangeDue s then [Engine.Step.envchange]
            else [Engine.Step.dilute]) := by
    rw [cycle_eq]
    exact List.drop_left s.trace _
  refine ⟨?_, ?_, ?_⟩
  · rw [cycle_eq]
    by_cases h : Engine.envChangeDue s
    · rw [if_pos h]
      have h' : 0 < s.env_change_frequency ∧ 0 < s.time ∧
          s.time % s.env_change_frequency = 0 := h
      simp [h']
    · rw [if_neg h]
      have h' : ¬ (0 < s.env_change_frequency ∧ 0 < s.time ∧
          s.time % s.env_change_frequency = 0) := h
      simp [h']
  · intro h
    rw [hdrop]
    by_cases hm : Engine.mixDue s <;> simp [if_pos h, hm]
  · intro h
    rw [hdrop]
    by_cases hm : Engine.mixDue s <;> simp [if_neg h, hm]

theorem env_change_xor_dilution_witness :
    Engine.envChangeDue
        { time := 5, mix_frequency := 0, env_change_frequency := 5,
          environment_changed := false, genome_length := 0, base_fitness := 0,
          production_cost := 0, fitness_landscape := [], mutation_probs := [],
          effects_stream := fun _ => [], draws := 1, trace := [] } ∧
    ((Engine.cycle
        { time := 5, mix_frequency := 0, env_change_frequency := 5,
          environment_changed := false, genome_length := 0, base_fitness := 0,
          production_cost := 0, fitness_landscape := [], mutation_probs := [],
          effects_stream := fun _ => [], draws := 1,
          trace := [] }).trace.drop 0).count Engine.Step.envchange = 1 :=
  ⟨⟨by decide, by decide, by decide⟩,
    by
      exact ((env_change_xor_dilution
        { time := 5, mix_frequency := 0, env_change_frequency := 5,
          environment_changed := false, genome_length := 0, base_fitness := 0,
          production_cost := 0, fitness_landscape := [], mutation_probs := [],
          effects_stream := fun _ => [], draws := 1,
          trace := [] }).2.1 ⟨by decide, by decide, by decide⟩).1⟩

theorem iterate_cycle_mutation_probs (s0 : Engine.EngState) (k : Nat) :
    (Engine.cycle^[k] s0).mutation_probs = s0.mutation_probs := by
  induction k with
  | zero => simp
  | succ k ih =>
    rw [Function.iterate_succ_apply', cycle_mutation_probs_eq, ih]

/-- C7: `change_environment` replaces the fitness landscape with a freshly
built one (from the next draw of the effects stream) but leaves the
mutation-probability matrix bit-identical; no `cycle` step modifies the
matrix, so after any number of cycles from construction it still equals the
matrix built once by the constructor. -/
theorem change_environment_frame (s : Engine.EngState) :
    (Engine.change_environment s).mutation_probs = s.mutation_probs ∧
    (Engine.change_environment s).fitness_landscape
      = build_fitness_landscape s.genome_length s.base_fitness
          s.production_cost (s.effects_stream s.draws) ∧
    (Engine.cycle s).mutation_probs = s.mutation_probs ∧
    (∀ (L : Nat) (b c ms ma : ℝ) (mf ef : Nat) (es : Nat → List ℝ) (k : Nat),
      (Engine.cycle^[k] (Engine.initState L b c ms ma mf ef es)).mutation_probs
        = get_mutation_probabilities L ms ma) := by
  refine ⟨rfl, rfl, cycle_mutation_probs_eq s, ?_⟩
  intro L b c ms ma mf ef es k
  rw [iterate_cycle_mutation_probs]
  rfl

/-- C9: whenever the metapopulation's total size is 0, `prop_producers`
returns the sentinel `NA` rather than raising a division-by-zero error;
whenever the size is positive it returns the number of producers divided by
the size. -/
theorem prop_producers_na (N : Nat) (m : Metapopulation.PopView N) :
    (Metapopulation.size m = 0 →
      Metapopulation.prop_producers m = Metapopulation.PropProducers.NA) ∧
    (0 < Metapopulation.size m →
      Metapopulation.prop_producers m
        = Metapopulation.PropProducers.val
            ((Metapopulation.num_producers m : ℚ)
              / (Metapopulation.size m : ℚ))) := by
  constructor
  · intro h
    unfold Metapopulation.prop_producers
    rw [if_pos h]
  · intro h
    unfold Metapopulation.prop_producers
    rw [if_neg (by omega)]

theorem prop_producers_na_witness :
    Metapopulation.size
        (Metapopulation.PopView.mk (N := 1) (fun _ => 0) (fun _ => 0)) = 0 ∧
    Metapopulation.prop_producers
        (Metapopulation.PopView.mk (N := 1) (fun _ => 0) (fun _ => 0))
      = Metapopulation.PropProducers.NA :=
  ⟨by decide,
    (prop_producers_na 1
      (Metapopulation.PopView.mk (fun _ => 0) (fun _ => 0))).1 (by decide)⟩

/-- C3 counterexample: with two nodes, genome length 1, `max_cap = 5`,
`min_cap = 3` and the identity dilution oracle, the claim's seeding (the
all-non-producer genotype 0 at maximum capacity on node 0) is false on the
code: node 0's abundance at genotype 0 is 0, not `max_cap`. -/
theorem corners_claim_counterexample :
    ¬ (corners_seed 2 1 5 3 id 0 0 = 5 ∧ corners_seed 2 1 5 3 id 1 2 = 3) := by
  decide

/-- C3 (amended): under the `corners` policy, node 0 is seeded with the
ALL-PRODUCER genotype `2^L` (social bit set) at the configured MAXIMUM
capacity and the last node with the all-non-producer genotype 0 at the
configured MINIMUM capacity, each diluted afterward, while every other
node's population starts empty — the mirror image of the
spec's assignment. -/
theorem corners_seed_amended (num_nodes L max_cap min_cap : Nat)
    (dil : (Nat → Nat) → (Nat → Nat)) (h2 : 2 ≤ num_nodes) :
    corners_seed num_nodes L max_cap min_cap dil 0
      = dil (Function.update (fun _ => 0) (2 ^ L) max_cap) ∧
    corners_seed num_nodes L max_cap min_cap dil (num_nodes - 1)
      = dil (Function.update (fun _ => 0) 0 min_cap) ∧
    (∀ n, 0 < n → n < num_nodes - 1 →
      corners_seed num_nodes L max_cap min_cap dil n = fun _ => 0) ∧
    genome.is_producer (2 ^ L) L = true ∧
    genome.is_producer 0 L = false := by
  refine ⟨?_, ?_, ?_, ?_, ?_⟩
  · unfold corners_seed
    rw [if_pos rfl]
  · unfold corners_seed
    rw [if_neg (by omega), if_pos rfl]
  · intro n hn1 hn2
    unfold corners_seed
    rw [if_neg (by omega), if_neg (by omega)]
  · simp [genome.is_producer, Nat.and_self]
  · simp only [genome.is_producer, Nat.zero_and]
    rw [beq_eq_false_iff_ne]
    have hpos : 0 < 2 ^ L := pow_pos (by omega) L
    omega

theorem corners_seed_amended_witness :
    2 ≤ 2 ∧
    corners_seed 2 1 5 3 id 0 = id (Function.update (fun _ => 0) (2 ^ 1) 5) :=
  ⟨by omega, (corners_seed_amended 2 1 5 3 id (by omega)).1⟩
